import Mathlib

/-!
Verification development for the identifier-extraction and report pipeline of
dclnt.py. Python strings are modelled as lists of characters, Python ast nodes
as the inductive PyNode, and code paths that can raise as Except values. The
external collaborators (os.walk, file reading, ast.parse, nltk pos_tag) enter
as oracle parameters.
-/

/-- Word models a Python string as a list of characters. -/
abbrev Word := List Char

/-- wd converts a Lean string literal to a Word. -/
def wd (s : String) : Word := s.toList

/-- PyErr enumerates the exceptions the modelled code can raise. -/
inductive PyErr where
  | ioError
  | indexError
  | attributeError
  | typeError
deriving DecidableEq

deriving instance DecidableEq for Except

/-- flat models the helper _flat: a list of lists flattened in order. -/
def flat : List (List α) → List α
  | [] => []
  | l :: ls => l ++ flat ls

/-- isMagicName models _is_magic_name: the name starts with a double
underscore and ends with a double underscore. -/
def isMagicName (nm : Word) : Bool := (wd "__").isPrefixOf nm && (wd "__").isSuffixOf nm

/-- pySplitUnder models the Python str.split with the underscore separator,
keeping empty segments exactly as CPython does. -/
def pySplitUnder : Word → List Word
  | [] => [[]]
  | c :: rest =>
    if c = '_' then [] :: pySplitUnder rest
    else
      match pySplitUnder rest with
      | s :: ss => (c :: s) :: ss
      | [] => [[c]]

mutual
/-- PyNode models the Python ast node shapes the program inspects. An
assignment always carries at least one target in CPython, so the first target
is a separate field. Node lists inside nodes use the isomorphic list type
PyNodeL so that node counting is structural. -/
inductive PyNode where
  | module (body : PyNodeL)
  | functionDef (nm : Word) (body : PyNodeL)
  | assign (tgt : PyNode) (tgts : PyNodeL) (value : PyNode)
  | ret (value : PyNodeL)
  | name (id : Word)
  | const

/-- PyNodeL is a list of PyNode, mutually inductive with PyNode. -/
inductive PyNodeL where
  | nil
  | cons (hd : PyNode) (tl : PyNodeL)
end

/-- toList converts a PyNodeL back to an ordinary list. -/
def PyNodeL.toList : PyNodeL → List PyNode
  | .nil => []
  | .cons h t => h :: t.toList

/-- pl builds a PyNodeL from an ordinary list, for writing trees down. -/
def pl : List PyNode → PyNodeL
  | [] => .nil
  | x :: xs => .cons x (pl xs)

/-- children models ast.iter_child_nodes on the modelled constructors, field
order matching the ast field order (targets before value). -/
def PyNode.children : PyNode → List PyNode
  | .module body => body.toList
  | .functionDef _ body => body.toList
  | .assign tgt tgts value => tgt :: (tgts.toList ++ [value])
  | .ret value => value.toList
  | .name _ => []
  | .const => []

mutual
/-- ncount counts the nodes of one tree, which is the number of nodes
ast.walk yields from it. -/
def PyNode.ncount : PyNode → Nat
  | .module body => 1 + body.ncount
  | .functionDef _ body => 1 + body.ncount
  | .assign tgt tgts value => 1 + (tgt.ncount + (tgts.ncount + value.ncount))
  | .ret value => 1 + value.ncount
  | .name _ => 1
  | .const => 1

/-- PyNodeL.ncount sums ncount over a PyNodeL. -/
def PyNodeL.ncount : PyNodeL → Nat
  | .nil => 0
  | .cons h t => h.ncount + t.ncount
end

/-- ncountList sums ncount over an ordinary list of trees. -/
def ncountList : List PyNode → Nat
  | [] => 0
  | n :: rest => n.ncount + ncountList rest

/-- walkAux is the breadth-first queue loop of ast.walk. The fuel argument
only bounds the iteration count; walk passes enough fuel for the full
traversal (theorem walkAux_fuel_irrelevant below), so the zero-fuel arm is
never reached from walk. -/
def walkAux : Nat → List PyNode → List PyNode
  | _, [] => []
  | 0, _ :: _ => []
  | fuel + 1, n :: queue => n :: walkAux fuel (queue ++ n.children)

/-- walk models ast.walk: breadth-first traversal starting at the root. -/
def walk (t : PyNode) : List PyNode := walkAux t.ncount [t]

/-- getWordsFunc models AnalyzerFunctionNames._get_words_from_tree: the name
of every function definition node, lowercased, flattened over the trees. -/
def getWordsFunc (trees : List PyNode) : List Word :=
  flat (trees.map (fun tree =>
    (walk tree).filterMap (fun n =>
      match n with
      | .functionDef nm _ => some (nm.map Char.toLower)
      | _ => none)))

/-- getWordsNames models AnalyzerNames._get_words_from_tree: the id of every
name node, flattened over the trees. -/
def getWordsNames (trees : List PyNode) : List Word :=
  flat (trees.map (fun tree =>
    (walk tree).filterMap (fun n =>
      match n with
      | .name id => some id
      | _ => none)))

/-- assignFirstTarget yields node.targets, indexed at zero, for assignment
nodes. -/
def assignFirstTarget : PyNode → Option PyNode
  | .assign tgt _ _ => some tgt
  | _ => none

/-- getIdAttr models getattr of the id field with default None: only name
nodes carry an id. -/
def getIdAttr : PyNode → Option Word
  | .name id => some id
  | _ => none

/-- pyTruthyWordOpt models Python truthiness of the getattr result: None and
the empty string are falsy. -/
def pyTruthyWordOpt : Option Word → Bool
  | none => false
  | some w => decide (w ≠ [])

/-- getWordsLocal models AnalyzerLocalVariables._get_words_from_tree: build
the per-tree lists of first assignment targets, then index the list of lists
at zero, which raises IndexError when there are no trees; keep the targets
whose id attribute is truthy and emit that id. -/
def getWordsLocal (trees : List PyNode) : Except PyErr (List Word) :=
  match trees.map (fun tree => (walk tree).filterMap assignFirstTarget) with
  | [] => .error .indexError
  | l0 :: _ =>
    .ok ((l0.filter (fun w => pyTruthyWordOpt (getIdAttr w))).map (fun w => (getIdAttr w).getD []))

/-- AnalyzerKind enumerates the three analyzer subclasses. -/
inductive AnalyzerKind where
  | functionNames
  | localVariables
  | names
deriving DecidableEq

/-- getWordsFromTree dispatches _get_words_from_tree over the subclasses. -/
def getWordsFromTree : AnalyzerKind → List PyNode → Except PyErr (List Word)
  | .functionNames, trees => .ok (getWordsFunc trees)
  | .localVariables, trees => getWordsLocal trees
  | .names, trees => .ok (getWordsNames trees)

/-- Report models the Report class state: words, _word_type and _top_size. -/
structure Report where
  words : List Word
  wordType : Word
  topSize : Option Nat
deriving DecidableEq

/-- Report.initial models the Report constructor. -/
def Report.initial : Report := ⟨[], wd "VB", none⟩

/-- setWordList models Report.set_word_list. -/
def Report.setWordList (r : Report) (l : List Word) : Report := { r with words := l }

/-- setTopSize models Report.set_top_size; None clears the size. -/
def Report.setTopSize (r : Report) (n : Option Nat) : Report := { r with topSize := n }

/-- isWordType models Report._is_word_type given the pos_tag oracle; the
empty string short-circuits to False before the tagger is consulted. -/
def isWordType (tagger : Word → Word) (wordType : Word) (w : Word) : Bool :=
  if w = [] then false else decide (tagger w = wordType)

/-- filterWordType models Report.filter_word_type. -/
def Report.filterWordType (tagger : Word → Word) (r : Report) (wt : Word) : Report :=
  { r with wordType := wt, words := r.words.filter (fun w => isWordType tagger wt w) }

/-- splitSnakeCaseNameToWords models the inner helper of split_all_words:
underscore-delimited segments, empty segments dropped. -/
def splitSnakeCaseNameToWords (fullname : Word) : List Word :=
  (pySplitUnder fullname).filter (fun s => decide (s ≠ []))

/-- splitAllWords models Report.split_all_words. -/
def Report.splitAllWords (r : Report) : Report :=
  { r with words := flat (r.words.map splitSnakeCaseNameToWords) }

/-- countOcc counts the occurrences of w in ws, as collections.Counter does. -/
def countOcc (ws : List Word) (w : Word) : Nat :=
  (ws.filter (fun x => decide (x = w))).length

/-- firstOccsAux walks the word list keeping the first occurrence of each
word, the seen accumulator holding the words already kept. -/
def firstOccsAux (seen : List Word) : List Word → List Word
  | [] => []
  | w :: rest =>
    if w ∈ seen then firstOccsAux seen rest
    else w :: firstOccsAux (seen ++ [w]) rest

/-- firstOccs lists the distinct words of ws in first-occurrence order, which
is the key order of a collections.Counter built from ws. -/
def firstOccs (ws : List Word) : List Word := firstOccsAux [] ws

/-- counterItems models the items of collections.Counter(ws): the distinct
words in first-occurrence order, each with its count. -/
def counterItems (ws : List Word) : List (Word × Nat) :=
  (firstOccs ws).map (fun w => (w, countOcc ws w))

/-- insertByCount inserts an item into a count-descending list, before the
first item of equal or smaller count; this realizes the stable descending
sort that Counter.most_common performs. -/
def insertByCount (p : Word × Nat) : List (Word × Nat) → List (Word × Nat)
  | [] => [p]
  | q :: rest => if q.2 ≤ p.2 then p :: q :: rest else q :: insertByCount p rest

/-- sortByCountDesc is the stable sort by count descending. -/
def sortByCountDesc : List (Word × Nat) → List (Word × Nat)
  | [] => []
  | p :: rest => insertByCount p (sortByCountDesc rest)

/-- mostCommon models collections.Counter(ws).most_common(n): the n largest
counts, stably sorted descending, ties kept in first-occurrence order. -/
def mostCommon (n : Nat) (ws : List Word) : List (Word × Nat) :=
  (sortByCountDesc (counterItems ws)).take n

/-- firstIdx gives the index of the first occurrence of w in ws. -/
def firstIdx (ws : List Word) (w : Word) : Nat :=
  match ws with
  | [] => 0
  | x :: rest => if x = w then 0 else firstIdx rest w + 1

/-- Entry is one report row: a word paired with a count, or with the empty
string (modelled none) when no top size is in effect. -/
abbrev Entry := Word × Option Nat

/-- createReport models Report.create_report. A _top_size of None or 0 is
falsy in Python, so the branch returning one entry per occurrence with the
empty count is taken for both. -/
def Report.createReport (r : Report) : List Entry :=
  match r.topSize with
  | none => r.words.map (fun w => (w, none))
  | some n =>
    if n = 0 then r.words.map (fun w => (w, none))
    else (mostCommon n r.words).map (fun p => (p.1, some p.2))

/-- PyFile models one file the scan can meet: its name and the outcome of
reading then parsing it. none: the read itself raises. some none: ast.parse
raises SyntaxError. some (some t): the file parses to tree t. -/
structure PyFile where
  fname : Word
  content : Option (Option PyNode)

/-- getTree models _get_tree: the open and read happen outside the try block,
so a read failure propagates; a SyntaxError is caught and leaves tree None. -/
def getTree (f : PyFile) : Except PyErr (Option PyNode) :=
  match f.content with
  | none => .error .ioError
  | some p => .ok p

/-- scanFiles models the inner file loop of _get_trees_in_path over one
directory. The cap test runs before each file; the returned Bool records
whether the 100-tree break fired. A tree is requested only for names ending
with the extension, and appended only when truthy (not None). -/
def scanFiles (exp : Word) : List PyFile → List PyNode → Except PyErr (List PyNode × Bool)
  | [], trees => .ok (trees, false)
  | f :: rest, trees =>
    if trees.length = 100 then .ok (trees, true)
    else
      match (if exp.isSuffixOf f.fname then getTree f else .ok none) with
      | .error e => .error e
      | .ok (some t) => scanFiles exp rest (trees ++ [t])
      | .ok none => scanFiles exp rest trees

/-- scanDirs models the os.walk loop with its for-else: when the cap break
fired inside a directory, the outer loop breaks as well and the accumulated
trees are returned. -/
def scanDirs (exp : Word) : List (List PyFile) → List PyNode → Except PyErr (List PyNode)
  | [], trees => .ok trees
  | d :: rest, trees =>
    match scanFiles exp d trees with
    | .error e => .error e
    | .ok (trees2, broke) => if broke then .ok trees2 else scanDirs exp rest trees2

/-- FS is the os.walk oracle: for a path, the file lists of the visited
directories in visiting order. -/
abbrev FS := Word → List (List PyFile)

/-- getTreesInPath models _AbstractAnalyzerBuilder._get_trees_in_path. -/
def getTreesInPath (fs : FS) (path exp : Word) : Except PyErr (List PyNode) :=
  scanDirs exp (fs path) []

/-- getTreesAllAux models the extension loop of _set_words_list accumulating
trees over the configured extension list. -/
def getTreesAllAux (fs : FS) (path : Word) : List Word → List PyNode → Except PyErr (List PyNode)
  | [], acc => .ok acc
  | e :: rest, acc =>
    match getTreesInPath fs path e with
    | .error err => .error err
    | .ok ts => getTreesAllAux fs path rest (acc ++ ts)

/-- getTreesAll gathers the trees for every configured extension. -/
def getTreesAll (fs : FS) (path : Word) (exps : List Word) : Except PyErr (List PyNode) :=
  getTreesAllAux fs path exps []

/-- Builder models the _AbstractAnalyzerBuilder state: subclass kind, path,
extension list and current report. The Python _report attribute only exists
after the first reset(); the placeholder stored here is overwritten by it. -/
structure Builder where
  kind : AnalyzerKind
  path : Word
  exp : List Word
  report : Report

/-- initBuilder models the subclass constructors: store the path, default the
extension list to the single Python extension. -/
def initBuilder (k : AnalyzerKind) (p : Word) : Builder :=
  ⟨k, p, [wd ".py"], Report.initial⟩

/-- Builder.reset models reset(): a fresh Report, then _set_words_list, which
seeds the word list with the extraction output with dunder names removed. -/
def Builder.reset (fs : FS) (b : Builder) : Except PyErr Builder :=
  match getTreesAll fs b.path b.exp with
  | .error e => .error e
  | .ok trees =>
    match getWordsFromTree b.kind trees with
    | .error e => .error e
    | .ok ws =>
      .ok { b with report := Report.initial.setWordList (ws.filter (fun w => !isMagicName w)) }

/-- setPath models set_path: store the new path, then reset. -/
def Builder.setPath (fs : FS) (b : Builder) (p : Word) : Except PyErr Builder :=
  Builder.reset fs { b with path := p }

/-- setExp models set_exp: store the new extension list, then reset. -/
def Builder.setExp (fs : FS) (b : Builder) (l : List Word) : Except PyErr Builder :=
  Builder.reset fs { b with exp := l }

/-- Builder.all models all(): clear the top size on the current report. -/
def Builder.all (b : Builder) : Builder := { b with report := b.report.setTopSize none }

/-- Builder.top models top(n). -/
def Builder.top (b : Builder) (n : Nat) : Builder :=
  { b with report := b.report.setTopSize (some n) }

/-- filterVerb models filter_verb(). -/
def Builder.filterVerb (tagger : Word → Word) (b : Builder) : Builder :=
  { b with report := b.report.filterWordType tagger (wd "VB") }

/-- filterNoun models filter_noun(). -/
def Builder.filterNoun (tagger : Word → Word) (b : Builder) : Builder :=
  { b with report := b.report.filterWordType tagger (wd "NN") }

/-- Builder.split models split(). -/
def Builder.split (b : Builder) : Builder := { b with report := b.report.splitAllWords }

/-- BOp enumerates the chainable report operations of the builder. -/
inductive BOp where
  | filterVerb
  | filterNoun
  | split
  | top (n : Nat)
  | all

/-- applyOp applies one chainable operation to the builder. -/
def applyOp (tagger : Word → Word) (b : Builder) : BOp → Builder
  | .filterVerb => b.filterVerb tagger
  | .filterNoun => b.filterNoun tagger
  | .split => b.split
  | .top n => b.top n
  | .all => b.all

/-- applyOps applies a chain of operations left to right. -/
def applyOps (tagger : Word → Word) (b : Builder) (ops : List BOp) : Builder :=
  ops.foldl (applyOp tagger) b

/-- assignTargetOk states that an assignment node whose first target is a
name node carries a nonempty identifier; CPython never produces an empty
identifier, so this holds of every real parse tree. -/
def assignTargetOk : PyNode → Bool
  | .assign (.name id) _ _ => decide (id ≠ [])
  | _ => true

/-- specLocalOf is the specified selection for one node: the identifier of
the first assignment target when that target is a simple name binding,
nothing for every other node or target shape. -/
def specLocalOf : PyNode → Option Word
  | .assign (.name id) _ _ => some id
  | _ => none

/-- firstTargetSimpleNames is the specified local-variable extraction: over
the walk of one tree, the identifier of the first assignment target of each
assignment node, emitted only when that target is a simple name binding. -/
def firstTargetSimpleNames (t : PyNode) : List Word :=
  (walk t).filterMap specLocalOf

/-- matchingF holds when the file name ends with the extension. -/
def matchingF (exp : Word) (f : PyFile) : Bool := exp.isSuffixOf f.fname

/-- parsedTree is the parse result of a readable file: its tree when it
parses, none when it does not. -/
def parsedTree (f : PyFile) : Option PyNode := f.content.getD none

/-- scannedTrees is the specified scan result: one tree for every matching
file that parses, in visiting order. -/
def scannedTrees (exp : Word) (dirs : List (List PyFile)) : List PyNode :=
  (flat dirs).filterMap (fun f => if matchingF exp f then parsedTree f else none)

/-- OutKind enumerates the output managers. -/
inductive OutKind where
  | console
  | json
  | csv
deriving DecidableEq

/-- MgrVal is a value fetched from _filters_dict: a constructed instance for
a known key, or the bare class used as the dict.get default. -/
inductive MgrVal where
  | inst (k : AnalyzerKind)
  | cls (k : AnalyzerKind)
deriving DecidableEq

/-- OutVal is a value fetched from _outputs_dict: an instance, or the bare
class used as the dict.get default. -/
inductive OutVal where
  | inst (k : OutKind)
  | cls (k : OutKind)
deriving DecidableEq

/-- filtersGet models _filters_dict.get(s, AnalyzerNames): the dict values
are instances, the default is the class object itself. -/
def filtersGet (s : String) : MgrVal :=
  if s = "Function" then .inst .functionNames
  else if s = "Name" then .inst .names
  else if s = "Local" then .inst .localVariables
  else .cls .names

/-- outputsGet models _outputs_dict.get(s, ConsoleOutputReport): the dict
values are instances, the default is the class object itself. -/
def outputsGet (s : String) : OutVal :=
  if s = "console" then .inst .console
  else if s = "json" then .inst .json
  else if s = "csv" then .inst .csv
  else .cls .console

/-- runMain models the __main__ block after the clone attempt, whose failures
are caught and logged. Absent or empty argument strings fall back by Python
truthiness; the managers come from the dicts; then set_path, the word-type
filters, top(), create_report and the output call run in program order.
Calling an instance method on a bare class raises: AttributeError inside
set_path (self is then the path string, which has no path attribute), and
TypeError for output_report (the report argument is missing). -/
def runMain (fs : FS) (tagger : Word → Word) (argFilter argOutput argWordtype : Option String) :
    Except PyErr (List Entry × OutKind) :=
  let filt := match argFilter with
    | some s => if s = "" then "Name" else s
    | none => "Name"
  let outp := match argOutput with
    | some s => if s = "" then "console" else s
    | none => "console"
  match filtersGet filt with
  | .cls _ => .error .attributeError
  | .inst k =>
    match Builder.setPath fs (initBuilder k (wd "./")) (wd "./PyGithub") with
    | .error e => .error e
    | .ok b =>
      let b1 := if argWordtype = some "VB" then b.filterVerb tagger else b
      let b2 := if argWordtype = some "NN" then b1.filterNoun tagger else b1
      let b3 := b2.top 10
      match outputsGet outp with
      | .cls _ => .error .typeError
      | .inst o => .ok (b3.report.createReport, o)

/-- fsEmpty is a filesystem oracle whose walk finds no directories. -/
def fsEmpty : FS := fun _ => []

/-- tag0 is a part-of-speech oracle returning the empty tag for every word. -/
def tag0 : Word → Word := fun _ => []

/-- treeGetValue is the parse tree of the scenario file holding the single
definition of getValue assigning and returning x_max. -/
def treeGetValue : PyNode :=
  .module (pl [.functionDef (wd "getValue")
    (pl [.assign (.name (wd "x_max")) .nil .const, .ret (pl [.name (wd "x_max")])])])

/-- fsOne is a filesystem with a single directory holding one parseable
Python file whose tree is treeGetValue. -/
def fsOne : FS := fun _ => [[⟨wd "m.py", some (some treeGetValue)⟩]]

/-- countOrder is the order most_common produces: strictly larger count
first, with equal counts resolved by the relation S, which is instantiated
with first-occurrence order. -/
def countOrder (S : Word × Nat → Word × Nat → Prop) (a b : Word × Nat) : Prop :=
  b.2 < a.2 ∨ (a.2 = b.2 ∧ S a b)

/-- dirsFix is a concrete directory walk with one matching parseable file
and one non-matching file, used in witnesses. -/
def dirsFix : List (List PyFile) :=
  [[⟨wd "a.py", some (some PyNode.const)⟩, ⟨wd "b.txt", some none⟩]]

/-- bFix is a concrete function-name builder used in witnesses. -/
def bFix : Builder := initBuilder .functionNames (wd "./")

/-- bFixPath is the state bFix reaches after set_path on the empty
filesystem. -/
def bFixPath : Builder := ⟨.functionNames, wd "p", [wd ".py"], ⟨[], wd "VB", none⟩⟩

/-- bFixExp is the state bFix reaches after set_exp on the empty
filesystem. -/
def bFixExp : Builder := ⟨.functionNames, wd "./", [wd ".js"], ⟨[], wd "VB", none⟩⟩

/-- bFixOne is the state bFix reaches after set_path on the fsOne corpus. -/
def bFixOne : Builder := ⟨.functionNames, wd "p", [wd ".py"], ⟨[wd "getvalue"], wd "VB", none⟩⟩

theorem ncountList_append (l1 l2 : List PyNode) :
    ncountList (l1 ++ l2) = ncountList l1 + ncountList l2 := by
  induction l1 with
  | nil => simp [ncountList]
  | cons a t ih => simp [ncountList, ih]; omega

theorem PyNodeL.ncount_toList : ∀ L : PyNodeL, ncountList L.toList = L.ncount
  | .nil => by simp [PyNodeL.toList, ncountList, PyNodeL.ncount]
  | .cons h t => by
    simp [PyNodeL.toList, ncountList, PyNodeL.ncount, PyNodeL.ncount_toList t]

theorem children_ncount (m : PyNode) : ncountList m.children + 1 = m.ncount := by
  cases m <;>
    simp [PyNode.children, PyNode.ncount, ncountList, ncountList_append,
      PyNodeL.ncount_toList] <;> omega

theorem ncount_pos (m : PyNode) : 1 ≤ m.ncount := by
  have := children_ncount m
  omega

theorem walkAux_nil (fuel : Nat) : walkAux fuel [] = [] := by cases fuel <;> rfl

theorem walkAux_fuel_irrelevant : ∀ (f1 f2 : Nat) (q : List PyNode),
    ncountList q ≤ f1 → ncountList q ≤ f2 → walkAux f1 q = walkAux f2 q := by
  intro f1
  induction f1 with
  | zero =>
    intro f2 q hq _
    cases q with
    | nil => simp [walkAux_nil]
    | cons n queue =>
      exfalso
      have := ncount_pos n
      simp [ncountList] at hq
      omega
  | succ f ih =>
    intro f2 q h1 h2
    cases q with
    | nil => simp [walkAux_nil]
    | cons n queue =>
      cases f2 with
      | zero =>
        exfalso
        have := ncount_pos n
        simp [ncountList] at h2
        omega
      | succ f2m =>
        simp only [walkAux]
        have hc := children_ncount n
        simp only [ncountList] at h1 h2
        have hq1 : ncountList (queue ++ n.children) ≤ f := by
          rw [ncountList_append]; omega
        have hq2 : ncountList (queue ++ n.children) ≤ f2m := by
          rw [ncountList_append]; omega
        rw [ih f2m _ hq1 hq2]

theorem walk_fuel_sufficient (t : PyNode) (fuel : Nat) (h : t.ncount ≤ fuel) :
    walkAux fuel [t] = walk t := by
  unfold walk
  refine walkAux_fuel_irrelevant fuel t.ncount [t] ?_ ?_
  · simp [ncountList]; omega
  · simp [ncountList]

theorem mem_flat {α : Type} {l : List (List α)} {x : α} :
    x ∈ flat l ↔ ∃ s, s ∈ l ∧ x ∈ s := by
  induction l with
  | nil => simp [flat]
  | cons a t ih => simp [flat, ih]

theorem pySplitUnder_no_underscore : ∀ (w : Word), ∀ s ∈ pySplitUnder w, '_' ∉ s := by
  intro w
  induction w with
  | nil =>
    intro s hs
    simp [pySplitUnder] at hs
    subst hs
    simp
  | cons c rest ih =>
    intro s hs
    by_cases hc : c = '_'
    · simp [pySplitUnder, hc] at hs
      rcases hs with h | h
      · subst h; simp
      · exact ih s h
    · cases hE : pySplitUnder rest with
      | nil =>
        simp [pySplitUnder, hc, hE] at hs
        subst hs
        simpa using fun e => hc e.symm
      | cons s0 ss =>
        simp [pySplitUnder, hc, hE] at hs
        rcases hs with h | h
        · subst h
          intro hm
          rcases List.mem_cons.mp hm with h1 | h1
          · exact hc h1.symm
          · exact ih s0 (hE ▸ List.mem_cons_self s0 ss) h1
        · exact ih s (hE ▸ List.mem_cons_of_mem s0 h)

theorem pySplitUnder_eq_single (w : Word) (h : '_' ∉ w) : pySplitUnder w = [w] := by
  induction w with
  | nil => simp [pySplitUnder]
  | cons c rest ih =>
    have hc : ¬(c = '_') := fun e => h (by simp [e])
    have hr : '_' ∉ rest := fun hm => h (List.mem_cons_of_mem _ hm)
    simp [pySplitUnder, hc, ih hr]

theorem splitSnake_single (w : Word) (h1 : '_' ∉ w) (h2 : w ≠ []) :
    splitSnakeCaseNameToWords w = [w] := by
  simp [splitSnakeCaseNameToWords, pySplitUnder_eq_single w h1, List.filter, h2]

theorem mem_splitSnake {w s : Word} (hs : s ∈ splitSnakeCaseNameToWords w) :
    '_' ∉ s ∧ s ≠ [] := by
  simp only [splitSnakeCaseNameToWords, List.mem_filter, decide_eq_true_eq] at hs
  exact ⟨pySplitUnder_no_underscore w s hs.1, hs.2⟩

theorem flat_map_splitSnake_id (l : List Word)
    (h : ∀ s ∈ l, splitSnakeCaseNameToWords s = [s]) :
    flat (l.map splitSnakeCaseNameToWords) = l := by
  induction l with
  | nil => simp [flat]
  | cons a t ih =>
    simp only [List.map_cons, flat, h a (List.mem_cons_self a t)]
    rw [ih (fun s hs => h s (List.mem_cons_of_mem a hs))]
    rfl

theorem magic_has_underscore {w : Word} (h : isMagicName w = true) : '_' ∈ w := by
  simp only [isMagicName, Bool.and_eq_true] at h
  have h1 : (wd "__") <+: w := by
    rw [← List.isPrefixOf_iff_prefix]
    exact h.1
  exact h1.subset (by simp [wd])

theorem reset_ok_shape {fs : FS} {b b1 : Builder} (h : Builder.reset fs b = .ok b1) :
    ∃ ts ws, getTreesAll fs b.path b.exp = .ok ts ∧ getWordsFromTree b.kind ts = .ok ws ∧
      b1 = { b with report := ⟨ws.filter (fun w => !isMagicName w), wd "VB", none⟩ } := by
  unfold Builder.reset at h
  cases hts : getTreesAll fs b.path b.exp with
  | error e => simp only [hts] at h; exact Except.noConfusion h
  | ok ts =>
    simp only [hts] at h
    cases hws : getWordsFromTree b.kind ts with
    | error e => simp only [hws] at h; exact Except.noConfusion h
    | ok ws =>
      simp only [hws, Except.ok.injEq] at h
      exact ⟨ts, ws, rfl, hws, h.symm⟩

/-- Claim C1: every set_path or set_exp call that completes rebuilds the
report synchronously: the resulting word list is exactly the dunder-filtered
extraction output computed from the newly stored path and extension set, and
the prior report state is discarded (fresh report with top size unset, no
filter or split applied). -/
theorem C1_set_rebuilds_report (fs : FS) (b : Builder) (p : Word) (e : List Word)
    (b1 b2 : Builder) (h1 : Builder.setPath fs b p = .ok b1)
    (h2 : Builder.setExp fs b e = .ok b2) :
    (∃ ts ws, getTreesAll fs p b.exp = .ok ts ∧ getWordsFromTree b.kind ts = .ok ws ∧
       b1.report = ⟨ws.filter (fun w => !isMagicName w), wd "VB", none⟩ ∧
       b1.path = p ∧ b1.exp = b.exp) ∧
    (∃ ts ws, getTreesAll fs b.path e = .ok ts ∧ getWordsFromTree b.kind ts = .ok ws ∧
       b2.report = ⟨ws.filter (fun w => !isMagicName w), wd "VB", none⟩ ∧
       b2.path = b.path ∧ b2.exp = e) := by
  constructor
  · obtain ⟨ts, ws, hts, hws, hb⟩ := reset_ok_shape h1
    exact ⟨ts, ws, hts, hws, by rw [hb], by rw [hb], by rw [hb]⟩
  · obtain ⟨ts, ws, hts, hws, hb⟩ := reset_ok_shape h2
    exact ⟨ts, ws, hts, hws, by rw [hb], by rw [hb], by rw [hb]⟩

/-- Witness for C1 at a concrete builder and filesystem. -/
theorem C1_set_rebuilds_report_witness :
    Builder.setPath fsEmpty bFix (wd "p") = .ok bFixPath ∧
    Builder.setExp fsEmpty bFix [wd ".js"] = .ok bFixExp ∧
    ((∃ ts ws, getTreesAll fsEmpty (wd "p") bFix.exp = .ok ts ∧
        getWordsFromTree bFix.kind ts = .ok ws ∧
        bFixPath.report = ⟨ws.filter (fun w => !isMagicName w), wd "VB", none⟩ ∧
        bFixPath.path = wd "p" ∧ bFixPath.exp = bFix.exp) ∧
     (∃ ts ws, getTreesAll fsEmpty bFix.path [wd ".js"] = .ok ts ∧
        getWordsFromTree bFix.kind ts = .ok ws ∧
        bFixExp.report = ⟨ws.filter (fun w => !isMagicName w), wd "VB", none⟩ ∧
        bFixExp.path = bFix.path ∧ bFixExp.exp = [wd ".js"])) :=
  ⟨rfl, rfl,
    C1_set_rebuilds_report fsEmpty bFix (wd "p") [wd ".js"] bFixPath bFixExp rfl rfl⟩

/-- Claim C4 is a code bug: the code promises graceful degradation but the
local-variable extraction raises IndexError on an empty tree list, an
unreadable file raises inside the scan because the read sits outside the
try block, and therefore a set_path on a corpus with no parsed trees aborts
the local-variable pipeline. -/
theorem C4_crash_eval :
    getWordsFromTree .localVariables [] = .error .indexError ∧
    scanDirs (wd ".py") [[⟨wd "a.py", none⟩]] [] = .error .ioError ∧
    Builder.setPath fsEmpty (initBuilder .localVariables (wd "./")) (wd "p") =
      .error .indexError :=
  ⟨rfl, rfl, rfl⟩

/-- Claim C5: calling all() after top(n) fully discards the truncation, and
the following create_report returns one empty-count entry per occurrence in
list order. -/
theorem C5_all_after_top (b : Builder) (n : Nat) :
    ((b.top n).all).report.createReport =
      b.report.words.map (fun w => (w, (none : Option Nat))) ∧
    ((b.top n).all).report.words = b.report.words :=
  ⟨rfl, rfl⟩

/-- Counterexample to C6 as stated: the empty word contains no underscore,
yet split removes it instead of passing it through as one segment. -/
theorem C6_empty_word_counterexample :
    (Report.splitAllWords ⟨[[]], wd "VB", none⟩).words = [] ∧
    ([] : List Word) ≠ [[]] := by
  constructor
  · decide
  · decide

/-- Claim C6 as amended: split_all_words replaces the list by the flattened
non-empty underscore segments of each word in order; every nonempty word
without an underscore passes through as exactly one unchanged segment (the
empty word yields no segment); a second split leaves the list unchanged. -/
theorem C6_split_sound (r : Report) (w : Word) (h1 : '_' ∉ w) (h2 : w ≠ []) :
    (r.splitAllWords).words = flat (r.words.map splitSnakeCaseNameToWords) ∧
    splitSnakeCaseNameToWords w = [w] ∧
    r.splitAllWords.splitAllWords = r.splitAllWords := by
  refine ⟨rfl, splitSnake_single w h1 h2, ?_⟩
  have hall : ∀ s ∈ flat (r.words.map splitSnakeCaseNameToWords),
      splitSnakeCaseNameToWords s = [s] := by
    intro s hs
    rw [mem_flat] at hs
    obtain ⟨seg, hseg, hsmem⟩ := hs
    obtain ⟨u, hu, rfl⟩ := List.mem_map.mp hseg
    obtain ⟨hnu, hne⟩ := mem_splitSnake hsmem
    exact splitSnake_single s hnu hne
  simp [Report.splitAllWords, flat_map_splitSnake_id _ hall]

/-- Witness for C6 at a concrete report and word. -/
theorem C6_split_sound_witness :
    ('_' ∉ wd "ab") ∧ (wd "ab" ≠ []) ∧
    ((Report.splitAllWords ⟨[wd "a_b"], wd "VB", none⟩).words =
       flat ([wd "a_b"].map splitSnakeCaseNameToWords) ∧
     splitSnakeCaseNameToWords (wd "ab") = [wd "ab"] ∧
     Report.splitAllWords (Report.splitAllWords ⟨[wd "a_b"], wd "VB", none⟩) =
       Report.splitAllWords ⟨[wd "a_b"], wd "VB", none⟩) :=
  ⟨by decide, by decide,
    C6_split_sound ⟨[wd "a_b"], wd "VB", none⟩ (wd "ab") (by decide) (by decide)⟩

/-- Counterexample to C7 as stated: on the scenario corpus the function-name
pipeline followed by split yields the single word getvalue, because names are
only lowercased and split at underscores, never at camel-case boundaries. -/
theorem C7_camel_counterexample :
    (Builder.setPath fsOne (initBuilder .functionNames (wd "./")) (wd "p")).map
      (fun b => b.split.report.words) = .ok [wd "getvalue"] ∧
    (Except.ok [wd "getvalue"] : Except PyErr (List Word)) ≠
      .ok [wd "get", wd "value"] := by
  constructor
  · decide
  · decide

/-- Claim C7 as amended: on the scenario corpus the function-name pipeline
followed by split yields exactly the word getvalue, and the all-names
pipeline followed by split yields a list containing x and max (from the two
occurrences of the referenced name). -/
theorem C7_scenario_amended :
    (Builder.setPath fsOne (initBuilder .functionNames (wd "./")) (wd "p")).map
      (fun b => b.split.report.words) = .ok [wd "getvalue"] ∧
    (Builder.setPath fsOne (initBuilder .names (wd "./")) (wd "p")).map
      (fun b => b.split.report.words) = .ok [wd "x", wd "max", wd "x", wd "max"] ∧
    wd "x" ∈ [wd "x", wd "max", wd "x", wd "max"] ∧
    wd "max" ∈ [wd "x", wd "max", wd "x", wd "max"] := by
  refine ⟨by decide, by decide, by decide, by decide⟩

/-- Claim C10 is a code bug: an unknown filter or output value fetches the
dict.get default, which is the class object rather than an instance, so the
following instance-method call raises instead of falling back to the default
behaviour; absent arguments do fall back to the defaults. -/
theorem C10_fallback_crash_eval :
    runMain fsEmpty tag0 (some "Bogus") none none = .error .attributeError ∧
    runMain fsEmpty tag0 (some "Name") (some "Bogus") none = .error .typeError ∧
    runMain fsEmpty tag0 (some "Name") (some "console") none = .ok ([], .console) ∧
    runMain fsEmpty tag0 none none none =
      runMain fsEmpty tag0 (some "Name") (some "console") none :=
  ⟨rfl, rfl, rfl, rfl⟩

theorem local_pipeline_eq (L : List PyNode) (h : ∀ n ∈ L, assignTargetOk n = true) :
    ((L.filterMap assignFirstTarget).filter
        (fun w => pyTruthyWordOpt (getIdAttr w))).map (fun w => (getIdAttr w).getD []) =
      L.filterMap specLocalOf := by
  induction L with
  | nil => rfl
  | cons n rest ih =>
    have hrest := fun m hm => h m (List.mem_cons_of_mem n hm)
    have hn := h n (List.mem_cons_self n rest)
    cases n with
    | assign tgt tgts value =>
      cases tgt with
      | name id =>
        have hid : id ≠ [] := by simpa [assignTargetOk] using hn
        show ((PyNode.name id :: List.filterMap assignFirstTarget rest).filter
            (fun w => pyTruthyWordOpt (getIdAttr w))).map (fun w => (getIdAttr w).getD []) =
          id :: List.filterMap specLocalOf rest
        rw [List.filter_cons_of_pos (by simp [getIdAttr, pyTruthyWordOpt, hid]),
          List.map_cons, ih hrest]
        rfl
      | module body =>
        show ((PyNode.module body :: List.filterMap assignFirstTarget rest).filter
            (fun w => pyTruthyWordOpt (getIdAttr w))).map (fun w => (getIdAttr w).getD []) =
          List.filterMap specLocalOf rest
        rw [List.filter_cons_of_neg (by simp [getIdAttr, pyTruthyWordOpt]), ih hrest]
      | functionDef nm body =>
        show ((PyNode.functionDef nm body :: List.filterMap assignFirstTarget rest).filter
            (fun w => pyTruthyWordOpt (getIdAttr w))).map (fun w => (getIdAttr w).getD []) =
          List.filterMap specLocalOf rest
        rw [List.filter_cons_of_neg (by simp [getIdAttr, pyTruthyWordOpt]), ih hrest]
      | assign a b c =>
        show ((PyNode.assign a b c :: List.filterMap assignFirstTarget rest).filter
            (fun w => pyTruthyWordOpt (getIdAttr w))).map (fun w => (getIdAttr w).getD []) =
          List.filterMap specLocalOf rest
        rw [List.filter_cons_of_neg (by simp [getIdAttr, pyTruthyWordOpt]), ih hrest]
      | ret v =>
        show ((PyNode.ret v :: List.filterMap assignFirstTarget rest).filter
            (fun w => pyTruthyWordOpt (getIdAttr w))).map (fun w => (getIdAttr w).getD []) =
          List.filterMap specLocalOf rest
        rw [List.filter_cons_of_neg (by simp [getIdAttr, pyTruthyWordOpt]), ih hrest]
      | const =>
        show ((PyNode.const :: List.filterMap assignFirstTarget rest).filter
            (fun w => pyTruthyWordOpt (getIdAttr w))).map (fun w => (getIdAttr w).getD []) =
          List.filterMap specLocalOf rest
        rw [List.filter_cons_of_neg (by simp [getIdAttr, pyTruthyWordOpt]), ih hrest]
    | module body => exact ih hrest
    | functionDef nm body => exact ih hrest
    | ret v => exact ih hrest
    | name id => exact ih hrest
    | const => exact ih hrest

/-- Claim C8: for a nonempty tree sequence the local-variable extraction
returns exactly the identifiers of the first assignment target of each
assignment node of the first tree only, emitting the identifier only when
that target is a simple name binding, and silently skipping other targets;
later trees contribute nothing. The hypothesis states that name targets
carry nonempty identifiers, which holds of every CPython parse tree. -/
theorem C8_local_first_tree (t : PyNode) (rest : List PyNode)
    (h : ∀ n ∈ walk t, assignTargetOk n = true) :
    getWordsFromTree .localVariables (t :: rest) = .ok (firstTargetSimpleNames t) ∧
    getWordsFromTree .localVariables (t :: rest) = getWordsFromTree .localVariables [t] := by
  constructor
  · show getWordsLocal (t :: rest) = .ok (firstTargetSimpleNames t)
    simp only [getWordsLocal, List.map_cons, firstTargetSimpleNames, Except.ok.injEq]
    exact local_pipeline_eq (walk t) h
  · rfl

/-- Witness for C8 at the scenario tree with a junk second tree. -/
theorem C8_local_first_tree_witness :
    (∀ n ∈ walk treeGetValue, assignTargetOk n = true) ∧
    (getWordsFromTree .localVariables [treeGetValue, PyNode.const] =
       .ok (firstTargetSimpleNames treeGetValue) ∧
     getWordsFromTree .localVariables [treeGetValue, PyNode.const] =
       getWordsFromTree .localVariables [treeGetValue]) :=
  ⟨by decide, C8_local_first_tree treeGetValue [PyNode.const] (by decide)⟩

theorem notMagic_of_no_underscore {w : Word} (h : '_' ∉ w) : isMagicName w = false := by
  cases hb : isMagicName w
  · rfl
  · exact absurd (magic_has_underscore hb) h

theorem mem_firstOccsAux : ∀ (l seen : List Word) (x : Word),
    x ∈ firstOccsAux seen l → x ∈ l := by
  intro l
  induction l with
  | nil => intro seen x hx; simp [firstOccsAux] at hx
  | cons w rest ih =>
    intro seen x hx
    by_cases hw : w ∈ seen
    · simp only [firstOccsAux, if_pos hw] at hx
      exact List.mem_cons_of_mem _ (ih _ _ hx)
    · simp only [firstOccsAux, if_neg hw, List.mem_cons] at hx
      rcases hx with h | h
      · simp [h]
      · exact List.mem_cons_of_mem _ (ih _ _ h)

theorem mem_firstOccs {ws : List Word} {x : Word} (h : x ∈ firstOccs ws) : x ∈ ws :=
  mem_firstOccsAux ws [] x h

theorem mem_insertByCount {x p : Word × Nat} : ∀ {l : List (Word × Nat)},
    x ∈ insertByCount p l ↔ x = p ∨ x ∈ l := by
  intro l
  induction l with
  | nil => simp [insertByCount]
  | cons q rest ih =>
    by_cases hq : q.2 ≤ p.2
    · simp [insertByCount, hq]
    · simp [insertByCount, hq, ih]
      tauto

theorem mem_sortByCountDesc {x : Word × Nat} : ∀ {l : List (Word × Nat)},
    x ∈ sortByCountDesc l ↔ x ∈ l := by
  intro l
  induction l with
  | nil => simp [sortByCountDesc]
  | cons p rest ih => simp [sortByCountDesc, mem_insertByCount, ih]

theorem mem_counterItems {ws : List Word} {q : Word × Nat} (h : q ∈ counterItems ws) :
    q.1 ∈ ws ∧ q.2 = countOcc ws q.1 := by
  obtain ⟨w, hw, rfl⟩ := List.mem_map.mp h
  exact ⟨mem_firstOccs hw, rfl⟩

theorem mem_mostCommon {n : Nat} {ws : List Word} {q : Word × Nat}
    (h : q ∈ mostCommon n ws) : q.1 ∈ ws ∧ q.2 = countOcc ws q.1 :=
  mem_counterItems (mem_sortByCountDesc.mp (List.take_subset _ _ h))

theorem createReport_fst_mem (r : Report) : ∀ p ∈ r.createReport, p.1 ∈ r.words := by
  intro p hp
  unfold Report.createReport at hp
  cases hts : r.topSize with
  | none =>
    rw [hts] at hp
    obtain ⟨w, hw, rfl⟩ := List.mem_map.mp hp
    exact hw
  | some n =>
    rw [hts] at hp
    by_cases hn : n = 0
    · simp only [hn, if_pos rfl] at hp
      obtain ⟨w, hw, rfl⟩ := List.mem_map.mp hp
      exact hw
    · simp only [if_neg hn] at hp
      obtain ⟨q, hq, rfl⟩ := List.mem_map.mp hp
      exact (mem_mostCommon hq).1

theorem seed_noMagic {fs : FS} {b b1 : Builder} (h : Builder.reset fs b = .ok b1) :
    ∀ w ∈ b1.report.words, isMagicName w = false := by
  obtain ⟨ts, ws, _, _, hb⟩ := reset_ok_shape h
  subst hb
  intro w hw
  simp only [List.mem_filter, Bool.not_eq_true'] at hw
  exact hw.2

theorem applyOp_preserves_noMagic (tagger : Word → Word) (b : Builder) (op : BOp)
    (h : ∀ w ∈ b.report.words, isMagicName w = false) :
    ∀ w ∈ (applyOp tagger b op).report.words, isMagicName w = false := by
  cases op with
  | filterVerb =>
    intro w hw
    exact h w (List.mem_of_mem_filter hw)
  | filterNoun =>
    intro w hw
    exact h w (List.mem_of_mem_filter hw)
  | split =>
    intro w hw
    rw [show (applyOp tagger b .split).report.words =
          flat (b.report.words.map splitSnakeCaseNameToWords) from rfl, mem_flat] at hw
    obtain ⟨seg, hseg, hw2⟩ := hw
    obtain ⟨u, hu, rfl⟩ := List.mem_map.mp hseg
    obtain ⟨hnu, _⟩ := mem_splitSnake hw2
    exact notMagic_of_no_underscore hnu
  | top n => intro w hw; exact h w hw
  | all => intro w hw; exact h w hw

theorem applyOps_preserves_noMagic (tagger : Word → Word) (ops : List BOp) :
    ∀ (b : Builder), (∀ w ∈ b.report.words, isMagicName w = false) →
      ∀ w ∈ (applyOps tagger b ops).report.words, isMagicName w = false := by
  induction ops with
  | nil => intro b h; exact h
  | cons op rest ih =>
    intro b h
    exact ih _ (applyOp_preserves_noMagic tagger b op h)

/-- Claim C3: for every extraction strategy, every corpus reached through
set_path, and every chain of split, filter and top operations, no word in
the word list, and no word in the final report entries, both begins and
ends with a double underscore. -/
theorem C3_no_dunder_invariant (fs : FS) (tagger : Word → Word) (b : Builder) (p : Word)
    (b1 : Builder) (ops : List BOp) (h : Builder.setPath fs b p = .ok b1) :
    (∀ w ∈ (applyOps tagger b1 ops).report.words, isMagicName w = false) ∧
    (∀ en ∈ (applyOps tagger b1 ops).report.createReport, isMagicName en.1 = false) := by
  have h0 := seed_noMagic h
  have h1 := applyOps_preserves_noMagic tagger ops b1 h0
  refine ⟨h1, ?_⟩
  intro en hen
  exact h1 en.1 (createReport_fst_mem _ en hen)

/-- Witness for C3 at the scenario corpus with a split and a top. -/
theorem C3_no_dunder_invariant_witness :
    Builder.setPath fsOne bFix (wd "p") = .ok bFixOne ∧
    ((∀ w ∈ (applyOps tag0 bFixOne [BOp.split, BOp.top 1]).report.words,
        isMagicName w = false) ∧
     (∀ en ∈ (applyOps tag0 bFixOne [BOp.split, BOp.top 1]).report.createReport,
        isMagicName en.1 = false)) :=
  ⟨rfl, C3_no_dunder_invariant fsOne tag0 bFix (wd "p") bFixOne [BOp.split, BOp.top 1] rfl⟩

theorem firstOccsAux_not_mem_seen : ∀ (l seen : List Word) (x : Word),
    x ∈ firstOccsAux seen l → x ∉ seen := by
  intro l
  induction l with
  | nil => intro seen x hx; simp [firstOccsAux] at hx
  | cons w rest ih =>
    intro seen x hx
    by_cases hw : w ∈ seen
    · simp only [firstOccsAux, if_pos hw] at hx
      exact ih seen x hx
    · simp only [firstOccsAux, if_neg hw, List.mem_cons] at hx
      rcases hx with h | h
      · subst h; exact hw
      · intro hxseen
        exact ih _ x h (by simp [hxseen])

theorem firstOccsAux_nodup : ∀ (l seen : List Word), (firstOccsAux seen l).Nodup := by
  intro l
  induction l with
  | nil => intro seen; simp [firstOccsAux]
  | cons w rest ih =>
    intro seen
    by_cases hw : w ∈ seen
    · simp only [firstOccsAux, if_pos hw]; exact ih seen
    · simp only [firstOccsAux, if_neg hw]
      rw [List.nodup_cons]
      exact ⟨fun hmem => (firstOccsAux_not_mem_seen rest _ w hmem) (by simp), ih _⟩

theorem firstIdx_cons_self (w : Word) (rest : List Word) : firstIdx (w :: rest) w = 0 := by
  simp [firstIdx]

theorem firstIdx_cons_ne {w x : Word} (rest : List Word) (h : ¬(w = x)) :
    firstIdx (w :: rest) x = firstIdx rest x + 1 := by
  simp only [firstIdx, if_neg h]

theorem firstOccsAux_pairwise : ∀ (l seen : List Word),
    (firstOccsAux seen l).Pairwise (fun u v => firstIdx l u < firstIdx l v) := by
  intro l
  induction l with
  | nil => intro seen; simp [firstOccsAux]
  | cons w rest ih =>
    intro seen
    by_cases hw : w ∈ seen
    · simp only [firstOccsAux, if_pos hw]
      refine (ih seen).imp_of_mem ?_
      intro u v hu hv huv
      have hun : ¬(w = u) := fun e => (firstOccsAux_not_mem_seen rest seen u hu) (e ▸ hw)
      have hvn : ¬(w = v) := fun e => (firstOccsAux_not_mem_seen rest seen v hv) (e ▸ hw)
      rw [firstIdx_cons_ne rest hun, firstIdx_cons_ne rest hvn]
      omega
    · simp only [firstOccsAux, if_neg hw]
      refine List.Pairwise.cons ?_ ?_
      · intro v hv
        have hvn : ¬(w = v) :=
          fun e => (firstOccsAux_not_mem_seen rest _ v hv) (by simp [e])
        rw [firstIdx_cons_self, firstIdx_cons_ne rest hvn]
        omega
      · refine (ih (seen ++ [w])).imp_of_mem ?_
        intro u v hu hv huv
        have hun : ¬(w = u) :=
          fun e => (firstOccsAux_not_mem_seen rest _ u hu) (by simp [e])
        have hvn : ¬(w = v) :=
          fun e => (firstOccsAux_not_mem_seen rest _ v hv) (by simp [e])
        rw [firstIdx_cons_ne rest hun, firstIdx_cons_ne rest hvn]
        omega

theorem counterItems_pairwise (ws : List Word) :
    (counterItems ws).Pairwise (fun a b => firstIdx ws a.1 < firstIdx ws b.1) := by
  unfold counterItems firstOccs
  rw [List.pairwise_map]
  exact firstOccsAux_pairwise ws []

theorem counterItems_map_fst (ws : List Word) :
    (counterItems ws).map Prod.fst = firstOccs ws := by
  simp [counterItems, List.map_map, Function.comp_def]

theorem insertByCount_pairwise (S : Word × Nat → Word × Nat → Prop) (p : Word × Nat) :
    ∀ (l : List (Word × Nat)), l.Pairwise (countOrder S) → (∀ b ∈ l, S p b) →
      (insertByCount p l).Pairwise (countOrder S) := by
  intro l
  induction l with
  | nil =>
    intro _ _
    simp only [insertByCount]
    exact List.pairwise_singleton _ _
  | cons q rest ih =>
    intro hl hp
    have hl1 := List.pairwise_cons.mp hl
    by_cases hq : q.2 ≤ p.2
    · simp only [insertByCount, if_pos hq]
      refine List.Pairwise.cons ?_ hl
      intro x hx
      rcases List.mem_cons.mp hx with h | h
      · subst h
        rcases Nat.lt_or_ge x.2 p.2 with h1 | h1
        · exact Or.inl h1
        · exact Or.inr ⟨Nat.le_antisymm h1 hq, hp x (List.mem_cons_self x rest)⟩
      · have hxq := hl1.1 x h
        have hx2 : x.2 ≤ q.2 := by
          rcases hxq with h1 | h1
          · omega
          · omega
        rcases Nat.lt_or_ge x.2 p.2 with h1 | h1
        · exact Or.inl h1
        · refine Or.inr ⟨Nat.le_antisymm h1 (Nat.le_trans hx2 hq), ?_⟩
          exact hp x (List.mem_cons_of_mem q h)
    · simp only [insertByCount, if_neg hq]
      refine List.Pairwise.cons ?_ (ih hl1.2 (fun b hb => hp b (List.mem_cons_of_mem q hb)))
      intro x hx
      rcases mem_insertByCount.mp hx with h | h
      · subst h
        exact Or.inl (by omega)
      · exact hl1.1 x h

theorem sortByCountDesc_pairwise (S : Word × Nat → Word × Nat → Prop) :
    ∀ (l : List (Word × Nat)), l.Pairwise S → (sortByCountDesc l).Pairwise (countOrder S) := by
  intro l
  induction l with
  | nil => intro _; simp [sortByCountDesc]
  | cons p rest ih =>
    intro hl
    have hl1 := List.pairwise_cons.mp hl
    simp only [sortByCountDesc]
    refine insertByCount_pairwise S p _ (ih hl1.2) ?_
    intro b hb
    exact hl1.1 b (mem_sortByCountDesc.mp hb)

theorem insertByCount_perm (p : Word × Nat) : ∀ (l : List (Word × Nat)),
    (insertByCount p l).Perm (p :: l) := by
  intro l
  induction l with
  | nil => exact List.Perm.refl _
  | cons q rest ih =>
    by_cases hq : q.2 ≤ p.2
    · simp only [insertByCount, if_pos hq]
      exact List.Perm.refl _
    · simp only [insertByCount, if_neg hq]
      exact (ih.cons q).trans (List.Perm.swap p q rest)

theorem sortByCountDesc_perm : ∀ (l : List (Word × Nat)), (sortByCountDesc l).Perm l := by
  intro l
  induction l with
  | nil => exact List.Perm.refl _
  | cons p rest ih =>
    simp only [sortByCountDesc]
    exact (insertByCount_perm p _).trans (ih.cons p)

/-- Counterexample to C2 as stated: when top(0) has been set the report is
not truncated to at most zero entries, because a _top_size of 0 is falsy and
create_report returns every occurrence with the empty count instead. -/
theorem C2_top_zero_counterexample :
    Report.createReport ⟨[wd "a"], wd "VB", some 0⟩ = [(wd "a", none)] ∧
    ¬((Report.createReport ⟨[wd "a"], wd "VB", some 0⟩).length ≤ 0) := by
  constructor
  · decide
  · decide

/-- Claim C2 as amended: for top(n) with n of at least 1, create_report is
the mapped most_common list, which has at most n entries, each a distinct
word with its exact occurrence count in the pre-truncation list, ordered by
non-increasing count with ties in first-occurrence order; for n equal to 0
the truncation is ignored (0 is falsy) and every occurrence is returned with
the empty count. -/
theorem C2_top_report_sound (ws : List Word) (wt : Word) (n : Nat) (hn : n ≠ 0) :
    Report.createReport ⟨ws, wt, some n⟩ =
      (mostCommon n ws).map (fun p => (p.1, some p.2)) ∧
    (mostCommon n ws).length ≤ n ∧
    (∀ q ∈ mostCommon n ws, q.2 = countOcc ws q.1) ∧
    ((mostCommon n ws).map Prod.fst).Nodup ∧
    (mostCommon n ws).Pairwise (fun a b => b.2 ≤ a.2) ∧
    (mostCommon n ws).Pairwise
      (fun a b => b.2 < a.2 ∨ (a.2 = b.2 ∧ firstIdx ws a.1 < firstIdx ws b.1)) ∧
    Report.createReport ⟨ws, wt, some 0⟩ = ws.map (fun w => (w, none)) := by
  have hsorted : (sortByCountDesc (counterItems ws)).Pairwise
      (countOrder (fun a b => firstIdx ws a.1 < firstIdx ws b.1)) :=
    sortByCountDesc_pairwise _ _ (counterItems_pairwise ws)
  have htake : (mostCommon n ws).Pairwise
      (countOrder (fun a b => firstIdx ws a.1 < firstIdx ws b.1)) :=
    List.Pairwise.sublist (List.take_sublist n _) hsorted
  refine ⟨?_, ?_, ?_, ?_, ?_, ?_, ?_⟩
  · simp [Report.createReport, hn]
  · rw [mostCommon, List.length_take]
    exact Nat.min_le_left _ _
  · intro q hq
    exact (mem_mostCommon hq).2
  · have hfs : ((sortByCountDesc (counterItems ws)).map Prod.fst).Nodup := by
      have hperm : ((sortByCountDesc (counterItems ws)).map Prod.fst).Perm
          ((counterItems ws).map Prod.fst) := (sortByCountDesc_perm _).map _
      rw [counterItems_map_fst] at hperm
      exact hperm.nodup_iff.mpr (firstOccsAux_nodup ws [])
    rw [mostCommon, List.map_take]
    exact ((List.take_sublist n _).nodup) hfs
  · refine htake.imp ?_
    intro a b hab
    rcases hab with h | h
    · omega
    · omega
  · exact htake
  · simp [Report.createReport]

/-- Witness for C2 at a concrete word list and top size. -/
theorem C2_top_report_sound_witness :
    ((2 : Nat) ≠ 0) ∧
    (Report.createReport ⟨[wd "a", wd "b", wd "a"], wd "VB", some 2⟩ =
       (mostCommon 2 [wd "a", wd "b", wd "a"]).map (fun p => (p.1, some p.2)) ∧
     (mostCommon 2 [wd "a", wd "b", wd "a"]).length ≤ 2 ∧
     (∀ q ∈ mostCommon 2 [wd "a", wd "b", wd "a"],
        q.2 = countOcc [wd "a", wd "b", wd "a"] q.1) ∧
     ((mostCommon 2 [wd "a", wd "b", wd "a"]).map Prod.fst).Nodup ∧
     (mostCommon 2 [wd "a", wd "b", wd "a"]).Pairwise (fun a b => b.2 ≤ a.2) ∧
     (mostCommon 2 [wd "a", wd "b", wd "a"]).Pairwise
       (fun a b => b.2 < a.2 ∨ (a.2 = b.2 ∧
          firstIdx [wd "a", wd "b", wd "a"] a.1 < firstIdx [wd "a", wd "b", wd "a"] b.1)) ∧
     Report.createReport ⟨[wd "a", wd "b", wd "a"], wd "VB", some 0⟩ =
       [wd "a", wd "b", wd "a"].map (fun w => (w, none))) :=
  ⟨by decide, C2_top_report_sound [wd "a", wd "b", wd "a"] (wd "VB") 2 (by decide)⟩

theorem fm_nil_of_no_matching (exp : Word) : ∀ (files : List PyFile),
    (files.filter (matchingF exp)).length = 0 →
    files.filterMap (fun f => if matchingF exp f then parsedTree f else none) = [] := by
  intro files
  induction files with
  | nil => intro _; rfl
  | cons f rest ih =>
    intro h
    by_cases hm : matchingF exp f = true
    · rw [List.filter_cons_of_pos hm] at h
      simp at h
    · rw [List.filter_cons_of_neg (by simp [hm])] at h
      rw [List.filterMap_cons_none (by simp [hm])]
      exact ih h

theorem fm_length_le (exp : Word) : ∀ (files : List PyFile),
    (files.filterMap (fun f => if matchingF exp f then parsedTree f else none)).length ≤
      (files.filter (matchingF exp)).length := by
  intro files
  induction files with
  | nil => simp
  | cons f rest ih =>
    by_cases hm : matchingF exp f = true
    · rw [List.filter_cons_of_pos hm]
      cases hp : parsedTree f with
      | none =>
        rw [List.filterMap_cons_none (by simp [hm, hp])]
        simp only [List.length_cons]
        omega
      | some t =>
        have hstep : List.filterMap
            (fun g => if matchingF exp g then parsedTree g else none) (f :: rest) =
            t :: List.filterMap
              (fun g => if matchingF exp g then parsedTree g else none) rest := by
          rw [List.filterMap_cons]
          simp [hm, hp]
        rw [hstep]
        simp only [List.length_cons]
        omega
    · rw [List.filter_cons_of_neg (by simp [hm]), List.filterMap_cons_none (by simp [hm])]
      exact ih

theorem fm_eq_filter_fm (exp : Word) : ∀ (l : List PyFile),
    l.filterMap (fun f => if matchingF exp f then parsedTree f else none) =
      (l.filter (matchingF exp)).filterMap parsedTree := by
  intro l
  induction l with
  | nil => rfl
  | cons f rest ih =>
    by_cases hm : matchingF exp f = true
    · rw [List.filter_cons_of_pos hm]
      cases hp : parsedTree f with
      | none =>
        rw [List.filterMap_cons_none (by simp [hm, hp]), List.filterMap_cons_none hp, ih]
      | some t =>
        have hstep : List.filterMap
            (fun g => if matchingF exp g then parsedTree g else none) (f :: rest) =
            t :: List.filterMap
              (fun g => if matchingF exp g then parsedTree g else none) rest := by
          rw [List.filterMap_cons]
          simp [hm, hp]
        rw [hstep, List.filterMap_cons_some hp, ih]
    · rw [List.filter_cons_of_neg (by simp [hm]), List.filterMap_cons_none (by simp [hm]), ih]

theorem fm_parsed_length : ∀ (m : List PyFile),
    (m.filterMap parsedTree).length = (m.filter (fun f => (parsedTree f).isSome)).length := by
  intro m
  induction m with
  | nil => rfl
  | cons f rest ih =>
    cases hp : parsedTree f with
    | none =>
      rw [List.filterMap_cons_none hp, List.filter_cons_of_neg (by simp [hp])]
      exact ih
    | some t =>
      rw [List.filterMap_cons_some hp, List.filter_cons_of_pos (by simp [hp])]
      simp [ih]

theorem scanFiles_ok (exp : Word) : ∀ (files : List PyFile) (acc : List PyNode),
    (∀ f ∈ files, f.content.isSome = true) →
    acc.length + (files.filter (matchingF exp)).length ≤ 100 →
    ∃ brk, scanFiles exp files acc =
        .ok (acc ++ files.filterMap
          (fun f => if matchingF exp f then parsedTree f else none), brk) ∧
      (brk = true → (acc ++ files.filterMap
          (fun f => if matchingF exp f then parsedTree f else none)).length = 100) := by
  intro files
  induction files with
  | nil =>
    intro acc hread hcap
    refine ⟨false, ?_, by simp⟩
    simp [scanFiles]
  | cons f rest ih =>
    intro acc hread hcap
    by_cases hlen : acc.length = 100
    · have h0 : ((f :: rest).filter (matchingF exp)).length = 0 := by omega
      refine ⟨true, ?_, ?_⟩
      · simp only [scanFiles, if_pos hlen]
        rw [fm_nil_of_no_matching exp _ h0, List.append_nil]
      · intro _
        rw [fm_nil_of_no_matching exp _ h0, List.append_nil]
        exact hlen
    · have hcontent : f.content.isSome = true := hread f (List.mem_cons_self f rest)
      obtain ⟨p, hp⟩ := Option.isSome_iff_exists.mp hcontent
      have hreadrest := fun g hg => hread g (List.mem_cons_of_mem f hg)
      by_cases hm : matchingF exp f = true
      · have hm2 : exp.isSuffixOf f.fname = true := hm
        have hgt : (if exp.isSuffixOf f.fname then getTree f else .ok none) =
            (.ok p : Except PyErr (Option PyNode)) := by
          simp [hm2, getTree, hp]
        have hpt : parsedTree f = p := by simp [parsedTree, hp]
        have hfl : ((f :: rest).filter (matchingF exp)).length =
            (rest.filter (matchingF exp)).length + 1 := by
          rw [List.filter_cons_of_pos hm]
          simp
        cases p with
        | some t =>
          have hcap2 : (acc ++ [t]).length + (rest.filter (matchingF exp)).length ≤ 100 := by
            simp only [List.length_append, List.length_cons, List.length_nil]
            omega
          obtain ⟨brk, hrun, hbrk⟩ := ih (acc ++ [t]) hreadrest hcap2
          have hstep : List.filterMap
              (fun g => if matchingF exp g then parsedTree g else none) (f :: rest) =
              t :: List.filterMap
                (fun g => if matchingF exp g then parsedTree g else none) rest := by
            rw [List.filterMap_cons]
            simp [hm, hpt]
          refine ⟨brk, ?_, ?_⟩
          · simp only [scanFiles, if_neg hlen, hgt]
            rw [hrun, hstep]
            simp [List.append_assoc]
          · intro hb
            have hres := hbrk hb
            rw [hstep]
            simpa [List.append_assoc] using hres
        | none =>
          have hcap2 : acc.length + (rest.filter (matchingF exp)).length ≤ 100 := by omega
          obtain ⟨brk, hrun, hbrk⟩ := ih acc hreadrest hcap2
          refine ⟨brk, ?_, ?_⟩
          · simp only [scanFiles, if_neg hlen, hgt]
            rw [hrun, List.filterMap_cons_none (by simp [hm, hpt])]
          · intro hb
            have hres := hbrk hb
            rwa [List.filterMap_cons_none (by simp [hm, hpt])]
      · have hm2 : ¬(exp.isSuffixOf f.fname = true) := hm
        have hgt : (if exp.isSuffixOf f.fname then getTree f else .ok none) =
            (.ok none : Except PyErr (Option PyNode)) := by
          simp [hm2]
        have hcap2 : acc.length + (rest.filter (matchingF exp)).length ≤ 100 := by
          rw [List.filter_cons_of_neg (by simp [hm])] at hcap
          omega
        obtain ⟨brk, hrun, hbrk⟩ := ih acc hreadrest hcap2
        refine ⟨brk, ?_, ?_⟩
        · simp only [scanFiles, if_neg hlen, hgt]
          rw [hrun, List.filterMap_cons_none (by simp [hm])]
        · intro hb
          have hres := hbrk hb
          rwa [List.filterMap_cons_none (by simp [hm])]

theorem scanDirs_ok (exp : Word) : ∀ (dirs : List (List PyFile)) (acc : List PyNode),
    (∀ d ∈ dirs, ∀ f ∈ d, f.content.isSome = true) →
    acc.length + ((flat dirs).filter (matchingF exp)).length ≤ 100 →
    scanDirs exp dirs acc =
      .ok (acc ++ (flat dirs).filterMap
        (fun f => if matchingF exp f then parsedTree f else none)) := by
  intro dirs
  induction dirs with
  | nil =>
    intro acc _ _
    simp [scanDirs, flat]
  | cons d rest ih =>
    intro acc hread hcap
    have hreadd := fun f hf => hread d (List.mem_cons_self d rest) f hf
    have hreadrest := fun d2 hd2 => hread d2 (List.mem_cons_of_mem d hd2)
    have hflt : ((flat (d :: rest)).filter (matchingF exp)).length =
        (d.filter (matchingF exp)).length + ((flat rest).filter (matchingF exp)).length := by
      simp [flat, List.filter_append]
    rw [hflt] at hcap
    have hcapd : acc.length + (d.filter (matchingF exp)).length ≤ 100 := by omega
    obtain ⟨brk, hrun, hbrk⟩ := scanFiles_ok exp d acc hreadd hcapd
    have hdlen := fm_length_le exp d
    cases brk with
    | false =>
      simp only [scanDirs, hrun, Bool.false_eq_true, if_false]
      have hcap2 : (acc ++ d.filterMap
          (fun f => if matchingF exp f then parsedTree f else none)).length +
          ((flat rest).filter (matchingF exp)).length ≤ 100 := by
        simp only [List.length_append]
        omega
      rw [ih _ hreadrest hcap2]
      simp [flat, List.filterMap_append, List.append_assoc]
    | true =>
      simp only [scanDirs, hrun, if_true]
      have h100 := hbrk rfl
      simp only [List.length_append] at h100
      have hrest0 : ((flat rest).filter (matchingF exp)).length = 0 := by omega
      rw [show flat (d :: rest) = d ++ flat rest from rfl, List.filterMap_append,
        fm_nil_of_no_matching exp _ hrest0, List.append_nil]

/-- Counterexample to C9 as stated: a directory holding an unreadable
matching file aborts the whole scan with the propagated read error, although
a matching parseable file is present in the same directory and should have
produced one tree. -/
theorem C9_unreadable_counterexample :
    scanDirs (wd ".py")
        [[⟨wd "a.py", none⟩, ⟨wd "b.py", some (some PyNode.const)⟩]] [] =
      .error .ioError ∧
    (scannedTrees (wd ".py")
        [[⟨wd "a.py", none⟩, ⟨wd "b.py", some (some PyNode.const)⟩]]).length = 1 :=
  ⟨rfl, rfl⟩

/-- Claim C9 as amended: for every walk with at most 100 matching files, all
of them readable, the scan returns exactly one tree per matching file that
parses, in order, and the tree count equals the count of successfully parsed
matching files; an unreadable file aborts the scan instead. -/
theorem C9_scan_complete (exp : Word) (dirs : List (List PyFile))
    (hread : ∀ d ∈ dirs, ∀ f ∈ d, f.content.isSome = true)
    (hcap : ((flat dirs).filter (matchingF exp)).length ≤ 100) :
    scanDirs exp dirs [] = .ok (scannedTrees exp dirs) ∧
    (scannedTrees exp dirs).length =
      (((flat dirs).filter (matchingF exp)).filter
        (fun f => (parsedTree f).isSome)).length := by
  constructor
  · have hmain := scanDirs_ok exp dirs [] hread (by simpa using hcap)
    simpa [scannedTrees] using hmain
  · show ((flat dirs).filterMap
        (fun f => if matchingF exp f then parsedTree f else none)).length = _
    rw [fm_eq_filter_fm, fm_parsed_length]

/-- Witness for C9 at a concrete two-file directory walk. -/
theorem C9_scan_complete_witness :
    (∀ d ∈ dirsFix, ∀ f ∈ d, f.content.isSome = true) ∧
    ((flat dirsFix).filter (matchingF (wd ".py"))).length ≤ 100 ∧
    (scanDirs (wd ".py") dirsFix [] = .ok (scannedTrees (wd ".py") dirsFix) ∧
     (scannedTrees (wd ".py") dirsFix).length =
       (((flat dirsFix).filter (matchingF (wd ".py"))).filter
         (fun f => (parsedTree f).isSome)).length) :=
  ⟨by decide, by decide, C9_scan_complete (wd ".py") dirsFix (by decide) (by decide)⟩
